import Mathlib

/-!
Verification of the klepto caching library (src/klepto/_cache.py and
src/klepto/_archives.py) against its natural-language specification.

The Python code is shallowly embedded: Python dicts become insertion-ordered
association lists (matching CPython 3.7+ dict iteration order), exceptions
become `Option`/`Except` results, and the statistics triple `[hit, miss, load]`
becomes an explicit `Stats` record.  Each cache decorator's `wrapper` closure
becomes a step function on an explicit state record, returning `none` exactly
where the Python code would raise (KeyError on `del` of an absent key,
ValueError on `deque.remove` of an absent element, IndexError on popping an
empty deque).
-/

namespace Klepto

/-! ## Python dict model: insertion-ordered association lists

`dset` models `d[k] = v` (update in place, or append a fresh key at the end,
exactly as a CPython dict preserves insertion order); `ddel` models `del d[k]`
(`none` = KeyError); `dlookup` models `d[k]`/`d.get(k)`. -/

def dlookup {α : Type} : List (Nat × α) → Nat → Option α
  | [], _ => none
  | p :: t, k => if p.1 = k then some p.2 else dlookup t k

def dset {α : Type} : List (Nat × α) → Nat → α → List (Nat × α)
  | [], k, v => [(k, v)]
  | p :: t, k, v => if p.1 = k then (k, v) :: t else p :: dset t k v

def ddel {α : Type} : List (Nat × α) → Nat → Option (List (Nat × α))
  | [], _ => none
  | p :: t, k => if p.1 = k then some t else (ddel t k).map (p :: ·)

/-- `target.update(src)`: fold the source entries into the target
(`cache.dump()` / `archive.update(self)` in `_archives.py`). -/
def dmergeInto {α : Type} (target src : List (Nat × α)) : List (Nat × α) :=
  src.foldl (fun d p => dset d p.1 p.2) target

/-- `Counter` read: missing keys default to zero (`Counter.__missing__`). -/
def cget {α : Type} [Zero α] (c : List (Nat × α)) (k : Nat) : α :=
  (dlookup c k).getD 0

/-- `use_count[key] += 1` / `refcount[key] += 1` on a `Counter`. -/
def cincr {α : Type} [Zero α] [Add α] [One α] (c : List (Nat × α)) (k : Nat) :
    List (Nat × α) :=
  dset c k (cget c k + 1)

/-! ## Statistics: the closure-captured `stats = [0, 0, 0]` list -/

structure Stats where
  hit : Nat
  miss : Nat
  load : Nat
deriving DecidableEq, Repr

def Stats.incHit (s : Stats) : Stats := { s with hit := s.hit + 1 }
def Stats.incMiss (s : Stats) : Stats := { s with miss := s.miss + 1 }
def Stats.incLoad (s : Stats) : Stats := { s with load := s.load + 1 }

/-! ## Archive slots (`class cache` in `_archives.py`)

`cache.__archive__` is the active archive and `cache.__swap__` the swap slot;
both are `null_archive()` when unset.  We model an archive as either null or a
live archive distinguished by an identifier. -/

inductive Arch
  | null
  | live (id : Nat)
deriving DecidableEq, Repr

def Arch.isNull : Arch → Bool
  | .null => true
  | .live _ => false

structure CacheSlots where
  act : Arch
  swp : Arch
deriving DecidableEq, Repr

/-- `cache.archived()` with no argument:
`not isinstance(self.archive, null_archive)` (`_archives.py` line 92). -/
def archivedQ (s : CacheSlots) : Bool := !s.act.isNull

/-- `cache.archived(on)` with one boolean argument (`_archives.py` lines 94-101):
if `on` is truthy, exchange the slots when the swap slot is non-null, else
raise ValueError when the active slot is also null; if `on` is falsy, exchange
the slots when the active slot is non-null. -/
def archivedToggle (s : CacheSlots) (flag : Bool) : Except String CacheSlots :=
  if flag then
    if !s.swp.isNull then .ok ⟨s.swp, s.act⟩
    else if s.act.isNull then .error "no valid archive has been set"
    else .ok s
  else
    if !s.act.isNull then .ok ⟨s.swp, s.act⟩ else .ok s

/-- The `cache.archive` property setter (`_archives.py` lines 126-129), which
is what every wrapper's `archive(obj)` assigns through: first exchange the two
slots when the swap slot is non-null, then overwrite the active slot. -/
def setArchive (s : CacheSlots) (a : Arch) : CacheSlots :=
  let s1 := if !s.swp.isNull then (⟨s.swp, s.act⟩ : CacheSlots) else s
  ⟨a, s1.swp⟩

/-! ## Decorator construction (`_cache.py`)

Each bounded decorator starts with
`if maxsize == 0: return no_cache(cache=cache, keymap=keymep, ...)`
(`_cache.py` lines 326-327, 471-472, 643-644, 790-791).  The identifier
`keymep` is not a parameter, not a local, and not a module global, so Python
raises `NameError` when that argument expression is evaluated.  We model the
construction with an explicit name-resolution step over the names actually in
scope at that line. -/

/-- Module-level names of `_cache.py` (imports and top-level definitions). -/
def cacheModuleGlobals : List String :=
  ["deque", "choice", "nsmallest", "itemgetter", "filterfalse",
   "update_wrapper", "RLock", "deep_round", "simple_round", "archive_dict",
   "hashmap", "CacheInfo", "_keygen", "Counter", "no_cache", "inf_cache",
   "lfu_cache", "lru_cache", "mru_cache", "rr_cache"]

/-- Local names in scope inside `lfu_cache`/`lru_cache`/`mru_cache`/`rr_cache`
at the `maxsize == 0` branch: exactly the function parameters. -/
def boundedCacheLocals : List String :=
  ["maxsize", "cache", "keymap", "ignore", "tol", "deep"]

/-- Python name resolution: locals, then enclosing module globals;
an unbound name raises `NameError` carrying the name. -/
def resolveName (locs globs : List String) (n : String) : Except String Unit :=
  if n ∈ locs ∨ n ∈ globs then .ok () else .error n

inductive Policy
  | lfu
  | lru
  | mru
  | rr
deriving DecidableEq, Repr

inductive Decorator
  | disabled
  | unbounded
  | bounded (p : Policy) (maxsize : Nat)
deriving DecidableEq, Repr

/-- Construction of any of the four bounded cache decorators
(`lfu_cache`, `lru_cache`, `mru_cache`, `rr_cache`): `maxsize == 0` delegates
to `no_cache(cache=cache, keymap=keymep, ...)`, whose argument expression
`keymep` must first be resolved as a name; `maxsize is None` delegates to
`inf_cache`; otherwise the policy's own decorator is built. -/
def mkBoundedCache (p : Policy) (maxsize : Option Nat) : Except String Decorator :=
  match maxsize with
  | some 0 =>
      (resolveName boundedCacheLocals cacheModuleGlobals "keymep").map
        fun _ => Decorator.disabled
  | none => .ok .unbounded
  | some m => .ok (.bounded p m)

/-! ## `dir_archive` on-disk model (`_archives.py` lines 238-612)

One `K_<name>` subdirectory per key.  An entry's on-disk state is: absent
(no subdirectory), a directory without a readable `output.pkl`, a directory
whose file cannot be opened, a directory whose file fails to deserialize, or a
completely stored value. -/

inductive EntryState
  | absent
  | noFile
  | unreadable
  | corrupt
  | stored (v : Nat)
deriving DecidableEq, Repr

abbrev DirFS := Nat → EntryState

inductive ReadErr
  | ioError
  | unpicklingError
deriving DecidableEq, Repr

/-- Opening and deserializing `K_<key>/output.pkl`
(the body of the `try` in `_lookup`, `_archives.py` lines 498-504). -/
def readOutput : EntryState → Except ReadErr Nat
  | .absent => .error .ioError
  | .noFile => .error .ioError
  | .unreadable => .error .ioError
  | .corrupt => .error .unpicklingError
  | .stored v => .ok v

inductive KeyErr
  | keyError (k : Nat)
deriving DecidableEq, Repr

/-- `dir_archive._lookup` / `__getitem__` (`_archives.py` lines 492-507):
every exception from the read attempt is converted to `KeyError(key)`. -/
def dir_lookup (fs : DirFS) (k : Nat) : Except KeyErr Nat :=
  match readOutput (fs k) with
  | .ok v => .ok v
  | .error _ => .error (.keyError k)

/-- `dir_archive.get(key, value=None)` (`_archives.py` lines 351-355):
a bare `except` converts any lookup failure into the default value. -/
def dir_get (fs : DirFS) (k : Nat) (default : Option Nat) : Option Nat :=
  match dir_lookup fs k with
  | .ok v => some v
  | .error _ => default

def fsUpdate (fs : DirFS) (k : Nat) (e : EntryState) : DirFS :=
  fun j => if j = k then e else fs j

/-- Fault injected into `_store` (`_archives.py` lines 527-571), one
constructor per injection point of the program:
`ok` = everything is written and the rename succeeds;
`mkdirFault` = `OSError` creating the temp directory (line 534): nothing is
written, and the final rename then fails on the missing source and is
swallowed as well;
`outputFault b` = `OSError` while writing `output.pkl` (lines 539/542-544):
the temp directory holds no output file, or a partial one when `b` is true;
`inputFault` = `OSError` while writing the auxiliary `input.pkl` AFTER
`output.pkl` completed (lines 540/545-548, reachable for any key with
`_fname(key) != key`, line 531): the temp directory holds a complete value;
`renameFault removedPrior` = the write completed but `os.renames` itself
raises `OSError` (line 567, swallowed), after `_rmdir(key)` — `rmtree` with
`ignore_errors=True` — either removed the prior entry (`removedPrior`) or
silently failed to;
`otherError` = a non-`OSError` serialization fault, which propagates out of
`_store` before the rename phase. -/
inductive WriteOutcome
  | ok
  | mkdirFault
  | outputFault (fileCreated : Bool)
  | inputFault
  | renameFault (removedPrior : Bool)
  | otherError
deriving DecidableEq, Repr

inductive PyExn
  | pyOSError
  | pyOther
deriving DecidableEq, Repr

/-- `dir_archive._store` (`_archives.py` lines 527-571) under the fault
model above.  Phase 1: create a fresh `I_`-prefixed temp directory and
serialize the value (and, when needed, the key) into it; an `OSError` here
is swallowed (`except OSError: "failed to populate..."`), any other
exception propagates.  Phase 2 (reached whenever phase 1 did not propagate):
`self._rmdir(key)` removes the pre-existing `K_<key>` directory best-effort,
then `os.renames` moves the temp directory — whatever it contains — into
place, itself swallowing an `OSError`. -/
def dir_store (fs : DirFS) (k : Nat) (v : Nat) (w : WriteOutcome) :
    Except PyExn DirFS :=
  match w with
  | .ok => .ok (fsUpdate fs k (.stored v))
  | .mkdirFault => .ok (fsUpdate fs k .absent)
  | .outputFault fileCreated =>
      .ok (fsUpdate fs k (if fileCreated then .corrupt else .noFile))
  | .inputFault => .ok (fsUpdate fs k (.stored v))
  | .renameFault removedPrior =>
      .ok (if removedPrior then fsUpdate fs k .absent else fs)
  | .otherError => .error .pyOther

/-! ## The memoization engines (`_cache.py`)

Keys are the canonical values produced by the external key codec, modelled
directly as naturals; the wrapped user function is `f : Nat → Nat`.  The flag
`archd` is `cache.archived()`: whether the attached archive is non-null.  It
is fixed per engine run, and `archv` holds the archive's contents. -/

/-- `cache.load(key)` (`_archives.py` lines 62-74, single-key form): copy the
archive's entry for `key` into the volatile dict, swallowing `KeyError`. -/
def cacheLoadKey (archv cache : List (Nat × Nat)) (k : Nat) :
    List (Nat × Nat) :=
  match dlookup archv k with
  | some v => dset cache k v
  | none => cache

/-! ### `no_cache` (`_cache.py` lines 36-153), `maxsize = 0` -/

structure NoSt where
  cache : List (Nat × Nat)
  stats : Stats
  archv : List (Nat × Nat)
deriving DecidableEq, Repr

def noInit : NoSt := ⟨[], ⟨0, 0, 0⟩, []⟩

/-- One call of the `no_cache` wrapper (`_cache.py` lines 99-122): load the
key from the archive when archived, then either report the loaded value
(clearing the volatile dict, `stats[LOAD] += 1`) or compute and insert it
(`stats[MISS] += 1`); finally, when the volatile dict is larger than
`maxsize = 0`, dump to the archive when archived and clear. -/
def noStep (archd : Bool) (f : Nat → Nat) (s : NoSt) (k : Nat) : Nat × NoSt :=
  let cache1 := if archd then cacheLoadKey s.archv s.cache k else s.cache
  match dlookup cache1 k with
  | some v =>
      (v, { s with cache := [], stats := s.stats.incLoad })
  | none =>
      let v := f k
      let cache2 := dset cache1 k v
      if cache2.length > 0 then
        (v, { cache := [],
              stats := s.stats.incMiss,
              archv := if archd then dmergeInto s.archv cache2 else s.archv })
      else
        (v, { s with cache := cache2, stats := s.stats.incMiss })

def noRun (archd : Bool) (f : Nat → Nat) (ks : List Nat) : NoSt :=
  ks.foldl (fun s k => (noStep archd f s k).2) noInit

/-! ### `inf_cache` (`_cache.py` lines 156-277), unbounded -/

structure InfSt where
  cache : List (Nat × Nat)
  stats : Stats
  archv : List (Nat × Nat)
deriving DecidableEq, Repr

def infInit : InfSt := ⟨[], ⟨0, 0, 0⟩, []⟩

/-- One call of the `inf_cache` wrapper (`_cache.py` lines 224-245):
volatile hit, else archive load then re-check, else compute and insert.
No overflow handling. -/
def infStep (archd : Bool) (f : Nat → Nat) (s : InfSt) (k : Nat) :
    Nat × InfSt :=
  match dlookup s.cache k with
  | some v => (v, { s with stats := s.stats.incHit })
  | none =>
      let cache1 := if archd then cacheLoadKey s.archv s.cache k else s.cache
      match dlookup cache1 k with
      | some v => (v, { s with cache := cache1, stats := s.stats.incLoad })
      | none =>
          let v := f k
          (v, { s with cache := dset cache1 k v, stats := s.stats.incMiss })

/-- `wrapper.clear(keepstats=True)` for `inf_cache` (`_cache.py` lines
255-258): `cache.clear()` empties only the volatile dict; statistics are kept
and the archive is untouched. -/
def infClearKeepStats (s : InfSt) : InfSt := { s with cache := [] }

/-- `wrapper.dump()` = `cache.dump()` (`_archives.py` lines 75-85, no-argument
form): `self.archive.update(self)`. -/
def infDump (s : InfSt) : InfSt :=
  { s with archv := dmergeInto s.archv s.cache }

/-! ### `lfu_cache` (`_cache.py` lines 280-422) -/

/-- Stable insertion of a pair into a list sorted by second component:
keeps earlier elements in front of later ones with equal value. -/
def insByVal (p : Nat × Nat) : List (Nat × Nat) → List (Nat × Nat)
  | [] => [p]
  | q :: t => if q.2 < p.2 then q :: insByVal p t else p :: q :: t

/-- Stable sort by second component: `sorted(items, key=itemgetter(1))`. -/
def sortByVal : List (Nat × Nat) → List (Nat × Nat)
  | [] => []
  | p :: t => insByVal p (sortByVal t)

/-- `heapq.nsmallest(n, items, key=itemgetter(1))`, documented as equivalent
to `sorted(items, key=...)[:n]` (stable in the original order on ties). -/
def nsmallestByVal (n : Nat) (l : List (Nat × Nat)) : List (Nat × Nat) :=
  (sortByVal l).take n

structure LfuSt where
  cache : List (Nat × Nat)
  counts : List (Nat × Nat)
  stats : Stats
  archv : List (Nat × Nat)
deriving DecidableEq, Repr

def lfuInit : LfuSt := ⟨[], [], ⟨0, 0, 0⟩, []⟩

/-- `for k, _ in nsmallest(...): del cache[k], use_count[k]`
(`_cache.py` lines 385-388); `none` = KeyError from `del`. -/
def lfuEvictList :
    List (Nat × Nat) → List (Nat × Nat) → List (Nat × Nat) →
    Option (List (Nat × Nat) × List (Nat × Nat)) :=
  fun victims cache counts =>
    match victims with
    | [] => some (cache, counts)
    | (k, _) :: rest =>
        match ddel cache k, ddel counts k with
        | some cache1, some counts1 => lfuEvictList rest cache1 counts1
        | _, _ => none

/-- The `lfu_cache` overflow handler (`_cache.py` lines 378-388): when the
volatile dict exceeds `maxsize`, either dump everything to the archive and
clear, or delete the `max(2, maxsize // 10)` least-frequent entries. -/
def lfuPurge (maxsize : Nat) (archd : Bool) (s : LfuSt) : Option LfuSt :=
  if s.cache.length > maxsize then
    if archd then
      some { s with archv := dmergeInto s.archv s.cache,
                    cache := [], counts := [] }
    else
      match lfuEvictList (nsmallestByVal (Nat.max 2 (maxsize / 10)) s.counts)
            s.cache s.counts with
      | some (c, u) => some { s with cache := c, counts := u }
      | none => none
  else
    some s

/-- One call of the `lfu_cache` wrapper (`_cache.py` lines 353-389). -/
def lfuStep (maxsize : Nat) (archd : Bool) (f : Nat → Nat) (s : LfuSt)
    (k : Nat) : Option (Nat × LfuSt) :=
  match dlookup s.cache k with
  | some v =>
      some (v, { s with counts := cincr s.counts k, stats := s.stats.incHit })
  | none =>
      let cache1 := if archd then cacheLoadKey s.archv s.cache k else s.cache
      match dlookup cache1 k with
      | some v =>
          (lfuPurge maxsize archd
            { s with cache := cache1, counts := cincr s.counts k,
                     stats := s.stats.incLoad }).map (fun s1 => (v, s1))
      | none =>
          let v := f k
          (lfuPurge maxsize archd
            { s with cache := dset cache1 k v, counts := cincr s.counts k,
                     stats := s.stats.incMiss }).map (fun s1 => (v, s1))

def lfuRun (maxsize : Nat) (archd : Bool) (f : Nat → Nat) (ks : List Nat) :
    Option LfuSt :=
  ks.foldlM (fun s k => (lfuStep maxsize archd f s k).map (·.2)) lfuInit

/-! ### `lru_cache` (`_cache.py` lines 425-594) -/

structure LruSt where
  cache : List (Nat × Nat)
  queue : List Nat
  refcount : List (Nat × Int)
  stats : Stats
  archv : List (Nat × Nat)
deriving DecidableEq, Repr

def lruInit : LruSt := ⟨[], [], [], ⟨0, 0, 0⟩, []⟩

/-- The `lru_cache` eviction loop (`_cache.py` lines 544-548):
`key = queue_popleft(); refcount[key] -= 1; while refcount[key]: ...`.
Refcounts are integers, as in Python (a missing key decrements to `-1`,
which is truthy).  `none` = IndexError popping an empty deque. -/
def lruEvictLoop :
    List Nat → List (Nat × Int) →
    Option (Nat × List Nat × List (Nat × Int))
  | [], _ => none
  | k :: q, rc =>
      let rc1 := dset rc k (cget rc k - 1)
      if cget rc1 k = 0 then some (k, q, rc1) else lruEvictLoop q rc1

/-- The `lru_cache` overflow handler (`_cache.py` lines 536-549). -/
def lruPurge (maxsize : Nat) (archd : Bool) (s : LruSt) : Option LruSt :=
  if s.cache.length > maxsize then
    if archd then
      some { s with archv := dmergeInto s.archv s.cache,
                    cache := [], queue := [], refcount := [] }
    else
      match lruEvictLoop s.queue s.refcount with
      | some (vict, q1, rc1) =>
          match ddel s.cache vict, ddel rc1 vict with
          | some c1, some rc2 =>
              some { s with cache := c1, queue := q1, refcount := rc2 }
          | _, _ => none
      | none => none
  else
    some s

/-- The queue-compaction loop body (`_cache.py` lines 554-559): pop keys from
the back of the queue down to the sentinel; a key not yet seen in the rebuilt
refcount is pushed onto the front of the new queue with refcount 1.  `l` is
the old queue already reversed (pop-from-back order), `acc` the rebuilt queue
(head = front), `rc` the rebuilt refcount. -/
def lruCompactGo :
    List Nat → List Nat → List (Nat × Int) → List Nat × List (Nat × Int)
  | [], acc, rc => (acc, rc)
  | k :: rest, acc, rc =>
      if (dlookup rc k).isSome then lruCompactGo rest acc rc
      else lruCompactGo rest (k :: acc) (dset rc k 1)

def lruCompact (q : List Nat) : List Nat × List (Nat × Int) :=
  lruCompactGo q.reverse [] []

/-- The compaction phase run at the end of every `lru_cache` call
(`_cache.py` lines 551-559): rebuild the queue and refcount whenever the
queue is longer than `maxqueue = maxsize * 10`. -/
def lruCompactPhase (maxqueue : Nat) (q : List Nat) (rc : List (Nat × Int)) :
    List Nat × List (Nat × Int) :=
  if q.length > maxqueue then lruCompact q else (q, rc)

/-- One call of the `lru_cache` wrapper (`_cache.py` lines 505-560). -/
def lruStep (maxsize : Nat) (archd : Bool) (f : Nat → Nat) (s : LruSt)
    (k : Nat) : Option (Nat × LruSt) :=
  let afterAccess : Option (Nat × LruSt) :=
    match dlookup s.cache k with
    | some v =>
        some (v, { s with queue := s.queue ++ [k],
                          refcount := cincr s.refcount k,
                          stats := s.stats.incHit })
    | none =>
        let cache1 := if archd then cacheLoadKey s.archv s.cache k else s.cache
        match dlookup cache1 k with
        | some v =>
            (lruPurge maxsize archd
              { s with cache := cache1, queue := s.queue ++ [k],
                       refcount := cincr s.refcount k,
                       stats := s.stats.incLoad }).map (fun s1 => (v, s1))
        | none =>
            let v := f k
            (lruPurge maxsize archd
              { s with cache := dset cache1 k v, queue := s.queue ++ [k],
                       refcount := cincr s.refcount k,
                       stats := s.stats.incMiss }).map (fun s1 => (v, s1))
  afterAccess.map fun (v, s1) =>
    let qr := lruCompactPhase (maxsize * 10) s1.queue s1.refcount
    (v, { s1 with queue := qr.1, refcount := qr.2 })

def lruRun (maxsize : Nat) (archd : Bool) (f : Nat → Nat) (ks : List Nat) :
    Option LruSt :=
  ks.foldlM (fun s k => (lruStep maxsize archd f s k).map (·.2)) lruInit

/-! ### `mru_cache` (`_cache.py` lines 597-741) -/

/-- `deque.remove(key)`: delete the first (leftmost) occurrence;
`none` = ValueError when the element is absent. -/
def qremove : List Nat → Nat → Option (List Nat)
  | [], _ => none
  | x :: t, k => if x = k then some t else (qremove t k).map (x :: ·)

/-- `deque.pop()`: remove and return the rightmost element;
`none` = IndexError on an empty deque. -/
def qpopBack (q : List Nat) : Option (Nat × List Nat) :=
  match q.reverse with
  | [] => none
  | x :: t => some (x, t.reverse)

structure MruSt where
  cache : List (Nat × Nat)
  queue : List Nat
  stats : Stats
  archv : List (Nat × Nat)
deriving DecidableEq, Repr

def mruInit : MruSt := ⟨[], [], ⟨0, 0, 0⟩, []⟩

/-- The `mru_cache` overflow handler (`_cache.py` lines 697-704):
dump-and-clear with an archive, else `del cache[queue.pop()]`. -/
def mruPurge (maxsize : Nat) (archd : Bool) (s : MruSt) : Option MruSt :=
  if s.cache.length > maxsize then
    if archd then
      some { s with archv := dmergeInto s.archv s.cache,
                    cache := [], queue := [] }
    else
      match qpopBack s.queue with
      | some (t, q1) =>
          match ddel s.cache t with
          | some c1 => some { s with cache := c1, queue := q1 }
          | none => none
      | none => none
  else
    some s

/-- One call of the `mru_cache` wrapper (`_cache.py` lines 674-708); the
accessed key is appended to the queue at the very end, after any purge. -/
def mruStep (maxsize : Nat) (archd : Bool) (f : Nat → Nat) (s : MruSt)
    (k : Nat) : Option (Nat × MruSt) :=
  let afterAccess : Option (Nat × MruSt) :=
    match dlookup s.cache k with
    | some v =>
        (qremove s.queue k).map fun q1 =>
          (v, { s with queue := q1, stats := s.stats.incHit })
    | none =>
        let cache1 := if archd then cacheLoadKey s.archv s.cache k else s.cache
        match dlookup cache1 k with
        | some v =>
            (mruPurge maxsize archd
              { s with cache := cache1,
                       stats := s.stats.incLoad }).map (fun s1 => (v, s1))
        | none =>
            let v := f k
            (mruPurge maxsize archd
              { s with cache := dset cache1 k v,
                       stats := s.stats.incMiss }).map (fun s1 => (v, s1))
  afterAccess.map fun (v, s1) => (v, { s1 with queue := s1.queue ++ [k] })

def mruRun (maxsize : Nat) (archd : Bool) (f : Nat → Nat) (ks : List Nat) :
    Option MruSt :=
  ks.foldlM (fun s k => (mruStep maxsize archd f s k).map (·.2)) mruInit

/-! ### `rr_cache` (`_cache.py` lines 744-877) -/

structure RrSt where
  cache : List (Nat × Nat)
  stats : Stats
  archv : List (Nat × Nat)
deriving DecidableEq, Repr

def rrInit : RrSt := ⟨[], ⟨0, 0, 0⟩, []⟩

/-- The `rr_cache` overflow handler (`_cache.py` lines 838-844):
dump-and-clear with an archive, else `del cache[choice(list(cache.keys()))]`;
the random choice is supplied as an index `rnd` into the key list. -/
def rrPurge (maxsize : Nat) (archd : Bool) (rnd : Nat) (s : RrSt) :
    Option RrSt :=
  if s.cache.length > maxsize then
    if archd then
      some { s with archv := dmergeInto s.archv s.cache, cache := [] }
    else
      let keys := s.cache.map (·.1)
      match keys[rnd % keys.length]? with
      | some vict =>
          match ddel s.cache vict with
          | some c1 => some { s with cache := c1 }
          | none => none
      | none => none
  else
    some s

/-- One call of the `rr_cache` wrapper (`_cache.py` lines 816-845). -/
def rrStep (maxsize : Nat) (archd : Bool) (f : Nat → Nat) (s : RrSt)
    (kr : Nat × Nat) : Option (Nat × RrSt) :=
  match dlookup s.cache kr.1 with
  | some v => some (v, { s with stats := s.stats.incHit })
  | none =>
      let cache1 :=
        if archd then cacheLoadKey s.archv s.cache kr.1 else s.cache
      match dlookup cache1 kr.1 with
      | some v =>
          (rrPurge maxsize archd kr.2
            { s with cache := cache1,
                     stats := s.stats.incLoad }).map (fun s1 => (v, s1))
      | none =>
          let v := f kr.1
          (rrPurge maxsize archd kr.2
            { s with cache := dset cache1 kr.1 v,
                     stats := s.stats.incMiss }).map (fun s1 => (v, s1))

def rrRun (maxsize : Nat) (archd : Bool) (f : Nat → Nat)
    (krs : List (Nat × Nat)) : Option RrSt :=
  krs.foldlM (fun s kr => (rrStep maxsize archd f s kr).map (·.2)) rrInit

/-! ### Specification-side definition for LRU queue compaction

Written from the spec's words (§4.2): "rebuild the queue keeping only the
most recent occurrence of each key, preserving relative recency order". -/

/-- Keep an element exactly when it has no later occurrence; recency order is
the queue's own order (most recent at the back). -/
def keepLast : List Nat → List Nat
  | [] => []
  | k :: t => if k ∈ t then keepLast t else k :: keepLast t

/-- Helper for relating the deque algorithm to `keepLast`: the elements of
`l` that are first occurrences with respect to the running `seen` list. -/
def selectFirsts : List Nat → List Nat → List Nat
  | [], _ => []
  | k :: t, seen =>
      if k ∈ seen then selectFirsts t seen
      else k :: selectFirsts t (k :: seen)

/-- `keepLast` relative to keys already excluded. -/
def keepLastExcl (seen : List Nat) : List Nat → List Nat
  | [] => []
  | k :: t =>
      if k ∈ seen ∨ k ∈ t then keepLastExcl seen t
      else k :: keepLastExcl seen t

/-! ## Helper lemmas about the dict model -/

theorem dlookup_dset {α : Type} (d : List (Nat × α)) (k j : Nat) (v : α) :
    dlookup (dset d k v) j = if k = j then some v else dlookup d j := by
  induction d with
  | nil =>
      by_cases hj : k = j <;> simp [dset, dlookup, hj]
  | cons p t ih =>
      by_cases hp : p.1 = k
      · by_cases hj : k = j <;>
          simp [dset, dlookup, hp, hj]
      · have hnj : p.1 = j → ¬ k = j := by
          intro hpj hkj; exact hp (hkj ▸ hpj)
        by_cases hpj : p.1 = j
        · have hjk : ¬ j = k := hpj ▸ hp
          simp [dset, dlookup, hp, hpj, hnj hpj, hjk]
        · simp [dset, dlookup, hp, hpj, ih]

theorem dset_length_le {α : Type} (d : List (Nat × α)) (k : Nat) (v : α) :
    (dset d k v).length ≤ d.length + 1 := by
  induction d with
  | nil => simp [dset]
  | cons p t ih =>
      by_cases hp : p.1 = k
      · simp [dset, hp]
      · simp only [dset, if_neg hp, List.length_cons]
        omega

theorem dset_ne_nil {α : Type} (d : List (Nat × α)) (k : Nat) (v : α) :
    dset d k v ≠ [] := by
  cases d with
  | nil => simp [dset]
  | cons p t =>
      by_cases hp : p.1 = k <;> simp [dset, hp]

theorem ddel_length {α : Type} (d : List (Nat × α)) (k : Nat)
    (d' : List (Nat × α)) (h : ddel d k = some d') :
    d'.length + 1 = d.length := by
  induction d generalizing d' with
  | nil => simp [ddel] at h
  | cons p t ih =>
      by_cases hp : p.1 = k
      · simp [ddel, hp] at h
        simp [← h]
      · simp only [ddel, if_neg hp] at h
        cases ht : ddel t k with
        | none => rw [ht] at h; simp at h
        | some t' =>
            rw [ht] at h
            simp at h
            have := ih t' ht
            simp [← h, ← this]

theorem cincr_ne_nil (c : List (Nat × Nat)) (k : Nat) : cincr c k ≠ [] :=
  dset_ne_nil c k _

theorem cacheLoadKey_length_le (a c : List (Nat × Nat)) (k : Nat) :
    (cacheLoadKey a c k).length ≤ c.length + 1 := by
  unfold cacheLoadKey
  cases dlookup a k with
  | none => exact Nat.le_succ _
  | some v => exact dset_length_le c k v

theorem cacheLoadKey_of_lookup_none (a c : List (Nat × Nat)) (k : Nat)
    (h : dlookup (cacheLoadKey a c k) k = none) : cacheLoadKey a c k = c := by
  unfold cacheLoadKey at *
  cases ha : dlookup a k with
  | none => rfl
  | some v =>
      rw [ha] at h
      rw [dlookup_dset] at h
      simp at h

/-! ## Helper lemmas about the stable sort -/

theorem insByVal_length (p : Nat × Nat) (l : List (Nat × Nat)) :
    (insByVal p l).length = l.length + 1 := by
  induction l with
  | nil => simp [insByVal]
  | cons q t ih =>
      by_cases hq : q.2 < p.2 <;> simp [insByVal, hq, ih]

theorem sortByVal_length (l : List (Nat × Nat)) :
    (sortByVal l).length = l.length := by
  induction l with
  | nil => simp [sortByVal]
  | cons p t ih => simp [sortByVal, insByVal_length, ih]

theorem nsmallestByVal_ne_nil (n : Nat) (l : List (Nat × Nat))
    (hn : 0 < n) (hl : l ≠ []) : nsmallestByVal n l ≠ [] := by
  have hlen : (nsmallestByVal n l).length = min n l.length := by
    simp [nsmallestByVal, List.length_take, sortByVal_length]
  have hpos : 0 < (nsmallestByVal n l).length := by
    rw [hlen]
    have : 0 < l.length := List.length_pos.mpr hl
    omega
  exact List.length_pos.mp hpos

/-! ## Generic invariant preservation through a fallible fold -/

theorem foldlM_option_inv {σ α : Type} (P : σ → Prop)
    (step : σ → α → Option σ)
    (hstep : ∀ s a s', P s → step s a = some s' → P s') :
    ∀ (l : List α) (s0 s : σ), P s0 → List.foldlM step s0 l = some s → P s := by
  intro l
  induction l with
  | nil =>
      intro s0 s h0 hr
      simp only [List.foldlM_nil] at hr
      cases hr
      exact h0
  | cons a t ih =>
      intro s0 s h0 hr
      rw [List.foldlM_cons] at hr
      cases h1 : step s0 a with
      | none => rw [h1] at hr; simp at hr
      | some s1 =>
          rw [h1] at hr
          simp only [Option.bind_eq_bind, Option.some_bind] at hr
          exact ih s1 s (hstep s0 a s1 h0 h1) hr

/-! ## Capacity preservation, policy by policy -/

theorem lfuEvictList_length (vs : List (Nat × Nat))
    (c u c' u' : List (Nat × Nat))
    (h : lfuEvictList vs c u = some (c', u')) :
    c'.length + vs.length = c.length := by
  induction vs generalizing c u with
  | nil =>
      simp [lfuEvictList] at h
      simp [h.1]
  | cons p rest ih =>
      simp only [lfuEvictList] at h
      cases hc : ddel c p.1 with
      | none => rw [hc] at h; simp at h
      | some c1 =>
          cases hu : ddel u p.1 with
          | none => rw [hc, hu] at h; simp at h
          | some u1 =>
              rw [hc, hu] at h
              have h1 := ih c1 u1 h
              have h2 := ddel_length c p.1 c1 hc
              simp only [List.length_cons]
              omega

theorem lfuPurge_capacity (maxsize : Nat) (archd : Bool) (s s' : LfuSt)
    (hpre : s.cache.length ≤ maxsize + 1) (hne : s.counts ≠ [])
    (hp : lfuPurge maxsize archd s = some s') :
    s'.cache.length ≤ maxsize := by
  unfold lfuPurge at hp
  by_cases hb : s.cache.length > maxsize
  · rw [if_pos hb] at hp
    cases archd with
    | true =>
        simp only [if_pos] at hp
        cases hp
        simp
    | false =>
        simp only [Bool.false_eq_true, if_false] at hp
        have hvne : nsmallestByVal (Nat.max 2 (maxsize / 10)) s.counts ≠ [] :=
          nsmallestByVal_ne_nil _ _
            (Nat.lt_of_lt_of_le (by decide) (Nat.le_max_left 2 (maxsize / 10))) hne
        obtain ⟨p, rest, hv⟩ := List.exists_cons_of_ne_nil hvne
        rw [hv] at hp
        cases hev : lfuEvictList (p :: rest) s.cache s.counts with
        | none => rw [hev] at hp; simp at hp
        | some cu =>
            rw [hev] at hp
            cases hp
            have hlen := lfuEvictList_length (p :: rest) s.cache s.counts
              cu.1 cu.2 hev
            simp only [List.length_cons] at hlen
            simp only []
            omega
  · rw [if_neg hb] at hp
    cases hp
    omega

theorem lfuStep_capacity (maxsize : Nat) (archd : Bool) (f : Nat → Nat)
    (s : LfuSt) (k : Nat) (r : Nat × LfuSt)
    (hc : s.cache.length ≤ maxsize)
    (hs : lfuStep maxsize archd f s k = some r) :
    r.2.cache.length ≤ maxsize := by
  cases hcache : dlookup s.cache k with
  | some v =>
      simp only [lfuStep, hcache] at hs
      cases hs
      exact hc
  | none =>
      simp only [lfuStep, hcache] at hs
      have hlen1 :
          (if archd then cacheLoadKey s.archv s.cache k else s.cache).length ≤
            s.cache.length + 1 := by
        cases archd with
        | true => simpa using cacheLoadKey_length_le s.archv s.cache k
        | false => simp
      cases h2 : dlookup (if archd then cacheLoadKey s.archv s.cache k else s.cache) k with
      | some v =>
          simp only [h2] at hs
          cases hpurge : lfuPurge maxsize archd
              { s with cache := if archd then cacheLoadKey s.archv s.cache k else s.cache,
                       counts := cincr s.counts k,
                       stats := s.stats.incLoad } with
          | none => rw [hpurge] at hs; simp at hs
          | some s1 =>
              rw [hpurge] at hs
              have hs2 : some (v, s1) = some r := hs
              cases hs2
              exact lfuPurge_capacity maxsize archd _ s1
                (le_trans hlen1 (Nat.succ_le_succ hc)) (cincr_ne_nil s.counts k) hpurge
      | none =>
          simp only [h2] at hs
          have heq :
              (if archd then cacheLoadKey s.archv s.cache k else s.cache) = s.cache := by
            cases archd with
            | true => simpa using cacheLoadKey_of_lookup_none s.archv s.cache k (by simpa using h2)
            | false => simp
          cases hpurge : lfuPurge maxsize archd
              { s with cache := dset (if archd then cacheLoadKey s.archv s.cache k else s.cache) k (f k),
                       counts := cincr s.counts k,
                       stats := s.stats.incMiss } with
          | none => rw [hpurge] at hs; simp at hs
          | some s1 =>
              rw [hpurge] at hs
              have hs2 : some (f k, s1) = some r := hs
              cases hs2
              refine lfuPurge_capacity maxsize archd _ s1 ?_ (cincr_ne_nil s.counts k) hpurge
              simp only [heq]
              have := dset_length_le s.cache k (f k)
              omega

theorem lruPurge_capacity (maxsize : Nat) (archd : Bool) (s s' : LruSt)
    (hpre : s.cache.length ≤ maxsize + 1)
    (hp : lruPurge maxsize archd s = some s') :
    s'.cache.length ≤ maxsize := by
  unfold lruPurge at hp
  by_cases hb : s.cache.length > maxsize
  · rw [if_pos hb] at hp
    cases archd with
    | true =>
        simp only [if_pos] at hp
        cases hp
        simp
    | false =>
        simp only [Bool.false_eq_true, if_false] at hp
        cases hev : lruEvictLoop s.queue s.refcount with
        | none => rw [hev] at hp; simp at hp
        | some vqr =>
            obtain ⟨vict, q1, rc1⟩ := vqr
            rw [hev] at hp
            cases hdc : ddel s.cache vict with
            | none => simp only [hdc] at hp; exact Option.noConfusion hp
            | some c1 =>
                cases hdr : ddel rc1 vict with
                | none => simp only [hdc, hdr] at hp; exact Option.noConfusion hp
                | some rc2 =>
                    simp only [hdc, hdr] at hp
                    cases hp
                    have := ddel_length s.cache vict c1 hdc
                    simp only []
                    omega
  · rw [if_neg hb] at hp
    cases hp
    omega

theorem lruStep_capacity (maxsize : Nat) (archd : Bool) (f : Nat → Nat)
    (s : LruSt) (k : Nat) (r : Nat × LruSt)
    (hc : s.cache.length ≤ maxsize)
    (hs : lruStep maxsize archd f s k = some r) :
    r.2.cache.length ≤ maxsize := by
  cases hcache : dlookup s.cache k with
  | some v =>
      simp only [lruStep, hcache] at hs
      obtain ⟨⟨v1, s1⟩, ha, hfa⟩ := Option.map_eq_some'.mp hs
      have ha2 : s1.cache = s.cache := by
        have ha3 :
            some (v, { s with queue := s.queue ++ [k],
                              refcount := cincr s.refcount k,
                              stats := s.stats.incHit }) = some (v1, s1) := ha
        cases ha3
        rfl
      rw [← hfa]
      simp only []
      rw [ha2]
      exact hc
  | none =>
      simp only [lruStep, hcache] at hs
      obtain ⟨⟨v1, s1⟩, ha, hfa⟩ := Option.map_eq_some'.mp hs
      have hlen1 :
          (if archd then cacheLoadKey s.archv s.cache k else s.cache).length ≤
            s.cache.length + 1 := by
        cases archd with
        | true => simpa using cacheLoadKey_length_le s.archv s.cache k
        | false => simp
      have hs1cap : s1.cache.length ≤ maxsize := by
        cases h2 : dlookup (if archd then cacheLoadKey s.archv s.cache k else s.cache) k with
        | some v =>
            simp only [h2] at ha
            cases hpurge : lruPurge maxsize archd
                { s with cache := if archd then cacheLoadKey s.archv s.cache k else s.cache,
                         queue := s.queue ++ [k],
                         refcount := cincr s.refcount k,
                         stats := s.stats.incLoad } with
            | none => rw [hpurge] at ha; simp at ha
            | some sp =>
                rw [hpurge] at ha
                have ha3 : some (v, sp) = some (v1, s1) := ha
                cases ha3
                exact lruPurge_capacity maxsize archd _ _
                  (le_trans hlen1 (Nat.succ_le_succ hc)) hpurge
        | none =>
            simp only [h2] at ha
            have heq :
                (if archd then cacheLoadKey s.archv s.cache k else s.cache) = s.cache := by
              cases archd with
              | true => simpa using cacheLoadKey_of_lookup_none s.archv s.cache k (by simpa using h2)
              | false => simp
            cases hpurge : lruPurge maxsize archd
                { s with cache := dset (if archd then cacheLoadKey s.archv s.cache k else s.cache) k (f k),
                         queue := s.queue ++ [k],
                         refcount := cincr s.refcount k,
                         stats := s.stats.incMiss } with
            | none => rw [hpurge] at ha; simp at ha
            | some sp =>
                rw [hpurge] at ha
                have ha3 : some (f k, sp) = some (v1, s1) := ha
                cases ha3
                refine lruPurge_capacity maxsize archd _ _ ?_ hpurge
                simp only [heq]
                have := dset_length_le s.cache k (f k)
                omega
      rw [← hfa]
      simp only []
      exact hs1cap

theorem mruPurge_capacity (maxsize : Nat) (archd : Bool) (s s' : MruSt)
    (hpre : s.cache.length ≤ maxsize + 1)
    (hp : mruPurge maxsize archd s = some s') :
    s'.cache.length ≤ maxsize := by
  unfold mruPurge at hp
  by_cases hb : s.cache.length > maxsize
  · rw [if_pos hb] at hp
    cases archd with
    | true =>
        simp only [if_pos] at hp
        cases hp
        simp
    | false =>
        simp only [Bool.false_eq_true, if_false] at hp
        cases hq : qpopBack s.queue with
        | none => rw [hq] at hp; simp at hp
        | some tq =>
            obtain ⟨t, q1⟩ := tq
            rw [hq] at hp
            cases hdc : ddel s.cache t with
            | none => simp only [hdc] at hp; exact Option.noConfusion hp
            | some c1 =>
                simp only [hdc] at hp
                cases hp
                have := ddel_length s.cache t c1 hdc
                simp only []
                omega
  · rw [if_neg hb] at hp
    cases hp
    omega

theorem mruStep_capacity (maxsize : Nat) (archd : Bool) (f : Nat → Nat)
    (s : MruSt) (k : Nat) (r : Nat × MruSt)
    (hc : s.cache.length ≤ maxsize)
    (hs : mruStep maxsize archd f s k = some r) :
    r.2.cache.length ≤ maxsize := by
  cases hcache : dlookup s.cache k with
  | some v =>
      simp only [mruStep, hcache] at hs
      obtain ⟨⟨v1, s1⟩, ha, hfa⟩ := Option.map_eq_some'.mp hs
      obtain ⟨q1, hq, ha2⟩ := Option.map_eq_some'.mp ha
      have ha3 : s1.cache = s.cache := by
        have ha4 :
            (v, { s with queue := q1, stats := s.stats.incHit }) = (v1, s1) := ha2
        cases ha4
        rfl
      rw [← hfa]
      simp only []
      rw [ha3]
      exact hc
  | none =>
      simp only [mruStep, hcache] at hs
      obtain ⟨⟨v1, s1⟩, ha, hfa⟩ := Option.map_eq_some'.mp hs
      have hlen1 :
          (if archd then cacheLoadKey s.archv s.cache k else s.cache).length ≤
            s.cache.length + 1 := by
        cases archd with
        | true => simpa using cacheLoadKey_length_le s.archv s.cache k
        | false => simp
      have hs1cap : s1.cache.length ≤ maxsize := by
        cases h2 : dlookup (if archd then cacheLoadKey s.archv s.cache k else s.cache) k with
        | some v =>
            simp only [h2] at ha
            cases hpurge : mruPurge maxsize archd
                { s with cache := if archd then cacheLoadKey s.archv s.cache k else s.cache,
                         stats := s.stats.incLoad } with
            | none => rw [hpurge] at ha; simp at ha
            | some sp =>
                rw [hpurge] at ha
                have ha3 : some (v, sp) = some (v1, s1) := ha
                cases ha3
                exact mruPurge_capacity maxsize archd _ _
                  (le_trans hlen1 (Nat.succ_le_succ hc)) hpurge
        | none =>
            simp only [h2] at ha
            have heq :
                (if archd then cacheLoadKey s.archv s.cache k else s.cache) = s.cache := by
              cases archd with
              | true => simpa using cacheLoadKey_of_lookup_none s.archv s.cache k (by simpa using h2)
              | false => simp
            cases hpurge : mruPurge maxsize archd
                { s with cache := dset (if archd then cacheLoadKey s.archv s.cache k else s.cache) k (f k),
                         stats := s.stats.incMiss } with
            | none => rw [hpurge] at ha; simp at ha
            | some sp =>
                rw [hpurge] at ha
                have ha3 : some (f k, sp) = some (v1, s1) := ha
                cases ha3
                refine mruPurge_capacity maxsize archd _ _ ?_ hpurge
                simp only [heq]
                have := dset_length_le s.cache k (f k)
                omega
      rw [← hfa]
      simp only []
      exact hs1cap

theorem rrPurge_capacity (maxsize : Nat) (archd : Bool) (rnd : Nat)
    (s s' : RrSt) (hpre : s.cache.length ≤ maxsize + 1)
    (hp : rrPurge maxsize archd rnd s = some s') :
    s'.cache.length ≤ maxsize := by
  unfold rrPurge at hp
  by_cases hb : s.cache.length > maxsize
  · rw [if_pos hb] at hp
    cases archd with
    | true =>
        simp only [if_pos] at hp
        cases hp
        simp
    | false =>
        simp only [Bool.false_eq_true, if_false] at hp
        cases hk : (s.cache.map (·.1))[rnd % (s.cache.map (·.1)).length]? with
        | none => simp only [hk] at hp; exact Option.noConfusion hp
        | some vict =>
            simp only [hk] at hp
            cases hdc : ddel s.cache vict with
            | none => simp only [hdc] at hp; exact Option.noConfusion hp
            | some c1 =>
                simp only [hdc] at hp
                cases hp
                have := ddel_length s.cache vict c1 hdc
                simp only []
                omega
  · rw [if_neg hb] at hp
    cases hp
    omega

theorem rrStep_capacity (maxsize : Nat) (archd : Bool) (f : Nat → Nat)
    (s : RrSt) (kr : Nat × Nat) (r : Nat × RrSt)
    (hc : s.cache.length ≤ maxsize)
    (hs : rrStep maxsize archd f s kr = some r) :
    r.2.cache.length ≤ maxsize := by
  cases hcache : dlookup s.cache kr.1 with
  | some v =>
      simp only [rrStep, hcache] at hs
      cases hs
      exact hc
  | none =>
      simp only [rrStep, hcache] at hs
      have hlen1 :
          (if archd then cacheLoadKey s.archv s.cache kr.1 else s.cache).length ≤
            s.cache.length + 1 := by
        cases archd with
        | true => simpa using cacheLoadKey_length_le s.archv s.cache kr.1
        | false => simp
      cases h2 : dlookup (if archd then cacheLoadKey s.archv s.cache kr.1 else s.cache) kr.1 with
      | some v =>
          simp only [h2] at hs
          cases hpurge : rrPurge maxsize archd kr.2
              { s with cache := if archd then cacheLoadKey s.archv s.cache kr.1 else s.cache,
                       stats := s.stats.incLoad } with
          | none => rw [hpurge] at hs; simp at hs
          | some sp =>
              rw [hpurge] at hs
              have hs2 : some (v, sp) = some r := hs
              cases hs2
              exact rrPurge_capacity maxsize archd kr.2 _ _
                (le_trans hlen1 (Nat.succ_le_succ hc)) hpurge
      | none =>
          simp only [h2] at hs
          have heq :
              (if archd then cacheLoadKey s.archv s.cache kr.1 else s.cache) = s.cache := by
            cases archd with
            | true => simpa using cacheLoadKey_of_lookup_none s.archv s.cache kr.1 (by simpa using h2)
            | false => simp
          cases hpurge : rrPurge maxsize archd kr.2
              { s with cache := dset (if archd then cacheLoadKey s.archv s.cache kr.1 else s.cache) kr.1 (f kr.1),
                       stats := s.stats.incMiss } with
          | none => rw [hpurge] at hs; simp at hs
          | some sp =>
              rw [hpurge] at hs
              have hs2 : some (f kr.1, sp) = some r := hs
              cases hs2
              refine rrPurge_capacity maxsize archd kr.2 _ _ ?_ hpurge
              simp only [heq]
              have := dset_length_le s.cache kr.1 (f kr.1)
              omega

/-! ## LRU queue compaction: relating the deque algorithm to `keepLast` -/

theorem selectFirsts_congr (l : List Nat) (s1 s2 : List Nat)
    (h : ∀ x, x ∈ s1 ↔ x ∈ s2) : selectFirsts l s1 = selectFirsts l s2 := by
  induction l generalizing s1 s2 with
  | nil => rfl
  | cons k t ih =>
      by_cases hk : k ∈ s1
      · have hk2 : k ∈ s2 := (h k).mp hk
        simp only [selectFirsts, if_pos hk, if_pos hk2]
        exact ih s1 s2 h
      · have hk2 : k ∉ s2 := fun hx => hk ((h k).mpr hx)
        simp only [selectFirsts, if_neg hk, if_neg hk2]
        rw [ih (k :: s1) (k :: s2)]
        intro x
        simp [h x]

theorem selectFirsts_append (l1 l2 s : List Nat) :
    selectFirsts (l1 ++ l2) s = selectFirsts l1 s ++ selectFirsts l2 (l1 ++ s) := by
  induction l1 generalizing s with
  | nil => simp [selectFirsts]
  | cons k t ih =>
      by_cases hk : k ∈ s
      · simp only [List.cons_append, List.append_eq, selectFirsts, if_pos hk]
        rw [ih s]
        congr 1
        apply selectFirsts_congr
        intro x
        simp only [List.cons_append, List.mem_cons, List.mem_append]
        constructor
        · intro hx
          exact Or.inr hx
        · rintro (rfl | hx)
          · exact Or.inr hk
          · exact hx
      · simp only [List.cons_append, List.append_eq, selectFirsts, if_neg hk]
        rw [ih (k :: s)]
        simp only [List.cons_append, List.cons.injEq, true_and]
        congr 1
        apply selectFirsts_congr
        intro x
        simp only [List.mem_append, List.mem_cons]
        tauto

theorem keepLastExcl_nil (q : List Nat) : keepLastExcl [] q = keepLast q := by
  induction q with
  | nil => rfl
  | cons a t ih =>
      simp only [keepLastExcl, keepLast, List.not_mem_nil, false_or, ih]

theorem selectFirsts_reverse (q seen : List Nat) :
    selectFirsts q.reverse seen = (keepLastExcl seen q).reverse := by
  induction q generalizing seen with
  | nil => rfl
  | cons a t ih =>
      rw [List.reverse_cons, selectFirsts_append, ih seen]
      by_cases ha : a ∈ seen ∨ a ∈ t
      · have hmem : a ∈ t.reverse ++ seen := by
          rcases ha with ha | ha
          · exact List.mem_append.mpr (Or.inr ha)
          · exact List.mem_append.mpr (Or.inl (List.mem_reverse.mpr ha))
        simp only [selectFirsts, if_pos hmem, keepLastExcl, if_pos ha,
          List.append_nil]
      · have hmem : a ∉ t.reverse ++ seen := by
          intro hx
          rcases List.mem_append.mp hx with hx | hx
          · exact ha (Or.inr (List.mem_reverse.mp hx))
          · exact ha (Or.inl hx)
        simp only [selectFirsts, if_neg hmem, keepLastExcl, if_neg ha,
          List.reverse_cons]

theorem lruCompactGo_spec (l : List Nat) (acc : List Nat)
    (rc : List (Nat × Int))
    (hm : ∀ j, (dlookup rc j).isSome ↔ j ∈ acc)
    (h1 : ∀ j ∈ acc, dlookup rc j = some 1) :
    (lruCompactGo l acc rc).1 = (selectFirsts l acc).reverse ++ acc ∧
    (∀ j ∈ (lruCompactGo l acc rc).1,
        dlookup (lruCompactGo l acc rc).2 j = some 1) := by
  induction l generalizing acc rc with
  | nil =>
      refine ⟨by simp [lruCompactGo, selectFirsts], ?_⟩
      intro j hj
      exact h1 j hj
  | cons k rest ih =>
      by_cases hk : k ∈ acc
      · have hsome : (dlookup rc k).isSome := (hm k).mpr hk
        simp only [lruCompactGo, hsome, if_true, selectFirsts, if_pos hk]
        exact ih acc rc hm h1
      · have hnone : ¬ (dlookup rc k).isSome := fun hx => hk ((hm k).mp hx)
        simp only [lruCompactGo, hnone, if_false, Bool.false_eq_true,
          selectFirsts, if_neg hk]
        have hm2 : ∀ j, (dlookup (dset rc k 1) j).isSome ↔ j ∈ k :: acc := by
          intro j
          rw [dlookup_dset]
          by_cases hj : k = j
          · subst hj; simp
          · simp only [if_neg hj, List.mem_cons]
            rw [hm j]
            constructor
            · exact Or.inr
            · rintro (rfl | hx)
              · exact absurd rfl hj
              · exact hx
        have h12 : ∀ j ∈ k :: acc, dlookup (dset rc k 1) j = some 1 := by
          intro j hj
          rw [dlookup_dset]
          by_cases hjk : k = j
          · simp [hjk]
          · rcases List.mem_cons.mp hj with rfl | hx
            · exact absurd rfl hjk
            · simp only [if_neg hjk]
              exact h1 j hx
        obtain ⟨hfst, hsnd⟩ := ih (k :: acc) (dset rc k 1) hm2 h12
        refine ⟨?_, hsnd⟩
        rw [hfst, List.reverse_cons, List.append_assoc]
        rfl

theorem lruCompact_eq (q : List Nat) :
    (lruCompact q).1 = keepLast q ∧
    (∀ j ∈ (lruCompact q).1, dlookup (lruCompact q).2 j = some 1) := by
  have h := lruCompactGo_spec q.reverse [] []
    (by intro j; simp [dlookup]) (by intro j hj; simp at hj)
  refine ⟨?_, h.2⟩
  have h1 : (lruCompact q).1 = (selectFirsts q.reverse []).reverse ++ [] := h.1
  rw [h1, selectFirsts_reverse, keepLastExcl_nil, List.reverse_reverse,
    List.append_nil]

theorem keepLast_mem (q : List Nat) (k : Nat) : k ∈ keepLast q ↔ k ∈ q := by
  induction q with
  | nil => simp [keepLast]
  | cons a t ih =>
      by_cases ha : a ∈ t
      · simp only [keepLast, if_pos ha, ih, List.mem_cons]
        constructor
        · exact Or.inr
        · rintro (rfl | hx)
          · exact ha
          · exact hx
      · simp only [keepLast, if_neg ha, List.mem_cons, ih]

theorem keepLast_nodup (q : List Nat) : (keepLast q).Nodup := by
  induction q with
  | nil => simp [keepLast]
  | cons a t ih =>
      by_cases ha : a ∈ t
      · simpa only [keepLast, if_pos ha] using ih
      · simp only [keepLast, if_neg ha, List.nodup_cons]
        exact ⟨fun hx => ha ((keepLast_mem t a).mp hx), ih⟩

/-! ## `no_cache` per-call facts -/

theorem noStep_post (archd : Bool) (f : Nat → Nat) (s : NoSt) (k : Nat) :
    (noStep archd f s k).2.cache = [] ∧
    (noStep archd f s k).2.stats.hit = s.stats.hit ∧
    (((noStep archd f s k).2.stats.miss = s.stats.miss + 1 ∧
      (noStep archd f s k).2.stats.load = s.stats.load) ∨
     ((noStep archd f s k).2.stats.load = s.stats.load + 1 ∧
      (noStep archd f s k).2.stats.miss = s.stats.miss)) := by
  simp only [noStep]
  cases hl : dlookup (if archd then cacheLoadKey s.archv s.cache k else s.cache) k with
  | some v =>
      simp [hl, Stats.incLoad]
  | none =>
      have hne := dset_ne_nil
        (if archd then cacheLoadKey s.archv s.cache k else s.cache) k (f k)
      have hpos :
          0 < (dset (if archd then cacheLoadKey s.archv s.cache k else s.cache)
                k (f k)).length := List.length_pos.mpr hne
      simp [hl, hpos, Stats.incMiss]

theorem noRun_cons (archd : Bool) (f : Nat → Nat) (k : Nat) (ks : List Nat)
    (s : NoSt) :
    (k :: ks).foldl (fun s k => (noStep archd f s k).2) s =
      ks.foldl (fun s k => (noStep archd f s k).2) (noStep archd f s k).2 := rfl

theorem noFold_hit (archd : Bool) (f : Nat → Nat) (ks : List Nat) (s : NoSt) :
    (ks.foldl (fun s k => (noStep archd f s k).2) s).stats.hit =
      s.stats.hit := by
  induction ks generalizing s with
  | nil => rfl
  | cons k t ih =>
      rw [noRun_cons]
      rw [ih]
      exact (noStep_post archd f s k).2.1

theorem noFold_cache (archd : Bool) (f : Nat → Nat) (ks : List Nat) (s : NoSt)
    (hs : s.cache = []) :
    (ks.foldl (fun s k => (noStep archd f s k).2) s).cache = [] := by
  induction ks generalizing s with
  | nil => exact hs
  | cons k t ih =>
      rw [noRun_cons]
      exact ih _ (noStep_post archd f s k).1

/-! ## Run-level capacity facts -/

theorem lfuRun_capacity (maxsize : Nat) (archd : Bool) (f : Nat → Nat)
    (ks : List Nat) (s : LfuSt) (hs : lfuRun maxsize archd f ks = some s) :
    s.cache.length ≤ maxsize := by
  refine foldlM_option_inv (fun st => st.cache.length ≤ maxsize) _ ?_ ks
    lfuInit s (by simp [lfuInit]) hs
  intro s0 a s1 h0 hstep
  obtain ⟨r, hr, hr2⟩ := Option.map_eq_some'.mp hstep
  rw [← hr2]
  exact lfuStep_capacity maxsize archd f s0 a r h0 hr

theorem lruRun_capacity (maxsize : Nat) (archd : Bool) (f : Nat → Nat)
    (ks : List Nat) (s : LruSt) (hs : lruRun maxsize archd f ks = some s) :
    s.cache.length ≤ maxsize := by
  refine foldlM_option_inv (fun st => st.cache.length ≤ maxsize) _ ?_ ks
    lruInit s (by simp [lruInit]) hs
  intro s0 a s1 h0 hstep
  obtain ⟨r, hr, hr2⟩ := Option.map_eq_some'.mp hstep
  rw [← hr2]
  exact lruStep_capacity maxsize archd f s0 a r h0 hr

theorem mruRun_capacity (maxsize : Nat) (archd : Bool) (f : Nat → Nat)
    (ks : List Nat) (s : MruSt) (hs : mruRun maxsize archd f ks = some s) :
    s.cache.length ≤ maxsize := by
  refine foldlM_option_inv (fun st => st.cache.length ≤ maxsize) _ ?_ ks
    mruInit s (by simp [mruInit]) hs
  intro s0 a s1 h0 hstep
  obtain ⟨r, hr, hr2⟩ := Option.map_eq_some'.mp hstep
  rw [← hr2]
  exact mruStep_capacity maxsize archd f s0 a r h0 hr

theorem rrRun_capacity (maxsize : Nat) (archd : Bool) (f : Nat → Nat)
    (krs : List (Nat × Nat)) (s : RrSt)
    (hs : rrRun maxsize archd f krs = some s) :
    s.cache.length ≤ maxsize := by
  refine foldlM_option_inv (fun st => st.cache.length ≤ maxsize) _ ?_ krs
    rrInit s (by simp [rrInit]) hs
  intro s0 a s1 h0 hstep
  obtain ⟨r, hr, hr2⟩ := Option.map_eq_some'.mp hstep
  rw [← hr2]
  exact rrStep_capacity maxsize archd f s0 a r h0 hr

/-! ## Claim theorems -/

/-- Claim C1 (code bug).  The claim says constructing any bounded cache
decorator with `maxsize = 0` succeeds and returns the Disabled (`no_cache`)
decorator.  In the code, every `maxsize == 0` branch passes `keymap=keymep`,
and `keymep` is an unbound name (an evident typo for `keymap`), so the
construction raises `NameError` instead of returning the `no_cache`
decorator.  This theorem evaluates the embedded construction of all four
bounded decorators at the failing input `maxsize = 0`. -/
theorem bounded_cache_maxsize_zero_raises_nameError :
    (∀ p : Policy, mkBoundedCache p (some 0) = Except.error "keymep") ∧
    (∀ p : Policy, mkBoundedCache p (some 0) ≠ Except.ok Decorator.disabled) := by
  have h1 : ∀ p : Policy, mkBoundedCache p (some 0) = Except.error "keymep" := by
    intro p
    cases p <;> rfl
  refine ⟨h1, ?_⟩
  intro p h
  rw [h1 p] at h
  exact Except.noConfusion h

/-- Claim C2, counterexample.  The claim says a storage fault during
`dir_archive._store`'s temp-write phase leaves the prior on-disk entry for
the key intact, so a subsequent `get` returns the pre-existing value.  With a
pre-existing entry `5 ↦ 10`, a swallowed `OSError` during the write of the
new value 77 leaves `get 5` returning the default (a miss), not `some 10`:
the code still removes the old `K_5` directory and renames the partially
written temp directory into place. -/
theorem dir_store_write_fault_loses_prior_entry :
    dir_get (fsUpdate (fun _ => EntryState.absent) 5 (EntryState.stored 10)) 5 none
      = some 10 ∧
    (match dir_store (fsUpdate (fun _ => EntryState.absent) 5 (EntryState.stored 10))
        5 77 (WriteOutcome.outputFault true) with
     | .ok fs1 => dir_get fs1 5 none
     | .error _ => some 0) = none := by
  exact ⟨rfl, rfl⟩

/-- Claim C2, amended.  If `set(k, v1)` fails during the temp-write phase
with a swallowed `OSError`, the prior entry is not preserved as such: a
fault at temp-directory creation or while writing the value file removes
the prior entry and leaves `get(k)` missing; a fault striking after the
value file completed (while writing the auxiliary input file, possible for
any key needing one) still renames a complete value into place, so `get(k)`
returns the NEW value v1; a swallowed rename-phase `OSError` leaves
`get(k)` missing when the prior directory was removed, and leaves the whole
store unchanged when that best-effort removal itself silently failed.  A
non-`OSError` fault propagates before the rename and leaves the store
unchanged.  In every case the observable outcome is the new value, a miss,
or the untouched prior store — never a partially-written value, and never
the prior value out of a modified store; entries for other keys are never
touched. -/
theorem dir_store_write_fault_behavior (fs : DirFS) (k v : Nat) :
    (∀ b fs1, dir_store fs k v (WriteOutcome.outputFault b) = .ok fs1 →
        dir_lookup fs1 k = .error (.keyError k) ∧ (∀ d, dir_get fs1 k d = d) ∧
        (∀ j, j ≠ k → fs1 j = fs j)) ∧
    (∀ fs1, dir_store fs k v WriteOutcome.mkdirFault = .ok fs1 →
        dir_lookup fs1 k = .error (.keyError k) ∧ (∀ j, j ≠ k → fs1 j = fs j)) ∧
    (∀ fs1, dir_store fs k v WriteOutcome.inputFault = .ok fs1 →
        dir_lookup fs1 k = .ok v ∧ (∀ j, j ≠ k → fs1 j = fs j)) ∧
    (∀ rp fs1, dir_store fs k v (WriteOutcome.renameFault rp) = .ok fs1 →
        (rp = true → dir_lookup fs1 k = .error (.keyError k)) ∧
        (rp = false → fs1 = fs) ∧ (∀ j, j ≠ k → fs1 j = fs j)) ∧
    dir_store fs k v WriteOutcome.otherError = .error .pyOther ∧
    (∀ fs1, dir_store fs k v WriteOutcome.ok = .ok fs1 →
        dir_lookup fs1 k = .ok v) ∧
    (∀ w fs1, dir_store fs k v w = .ok fs1 →
        dir_lookup fs1 k = .ok v ∨ dir_lookup fs1 k = .error (.keyError k) ∨
        fs1 = fs) := by
  refine ⟨?_, ?_, ?_, ?_, rfl, ?_, ?_⟩
  · intro b fs1 h
    have h2 : Except.ok (ε := PyExn)
        (fsUpdate fs k (if b then EntryState.corrupt else EntryState.noFile)) = .ok fs1 := h
    cases h2
    refine ⟨?_, ?_, ?_⟩
    · unfold dir_lookup fsUpdate
      cases b <;> simp [readOutput]
    · intro d
      unfold dir_get dir_lookup fsUpdate
      cases b <;> simp [readOutput]
    · intro j hj
      unfold fsUpdate
      simp [hj]
  · intro fs1 h
    have h2 : Except.ok (ε := PyExn) (fsUpdate fs k EntryState.absent) = .ok fs1 := h
    cases h2
    refine ⟨?_, ?_⟩
    · unfold dir_lookup fsUpdate
      simp [readOutput]
    · intro j hj
      unfold fsUpdate
      simp [hj]
  · intro fs1 h
    have h2 : Except.ok (ε := PyExn) (fsUpdate fs k (EntryState.stored v)) = .ok fs1 := h
    cases h2
    refine ⟨?_, ?_⟩
    · unfold dir_lookup fsUpdate
      simp [readOutput]
    · intro j hj
      unfold fsUpdate
      simp [hj]
  · intro rp fs1 h
    cases rp with
    | true =>
        have h2 : Except.ok (ε := PyExn) (fsUpdate fs k EntryState.absent) = .ok fs1 := h
        cases h2
        refine ⟨fun _ => ?_, fun hf => Bool.noConfusion hf, ?_⟩
        · unfold dir_lookup fsUpdate
          simp [readOutput]
        · intro j hj
          unfold fsUpdate
          simp [hj]
    | false =>
        have h2 : Except.ok (ε := PyExn) fs = .ok fs1 := h
        cases h2
        exact ⟨fun ht => Bool.noConfusion ht, fun _ => rfl, fun j hj => rfl⟩
  · intro fs1 h
    have h2 : Except.ok (ε := PyExn) (fsUpdate fs k (EntryState.stored v)) = .ok fs1 := h
    cases h2
    unfold dir_lookup fsUpdate
    simp [readOutput]
  · intro w fs1 h
    cases w with
    | ok =>
        have h2 : Except.ok (ε := PyExn) (fsUpdate fs k (EntryState.stored v)) = .ok fs1 := h
        cases h2
        left
        unfold dir_lookup fsUpdate
        simp [readOutput]
    | mkdirFault =>
        have h2 : Except.ok (ε := PyExn) (fsUpdate fs k EntryState.absent) = .ok fs1 := h
        cases h2
        right; left
        unfold dir_lookup fsUpdate
        simp [readOutput]
    | outputFault b =>
        have h2 : Except.ok (ε := PyExn)
            (fsUpdate fs k (if b then EntryState.corrupt else EntryState.noFile)) = .ok fs1 := h
        cases h2
        right; left
        unfold dir_lookup fsUpdate
        cases b <;> simp [readOutput]
    | inputFault =>
        have h2 : Except.ok (ε := PyExn) (fsUpdate fs k (EntryState.stored v)) = .ok fs1 := h
        cases h2
        left
        unfold dir_lookup fsUpdate
        simp [readOutput]
    | renameFault rp =>
        cases rp with
        | true =>
            have h2 : Except.ok (ε := PyExn) (fsUpdate fs k EntryState.absent) = .ok fs1 := h
            cases h2
            right; left
            unfold dir_lookup fsUpdate
            simp [readOutput]
        | false =>
            have h2 : Except.ok (ε := PyExn) fs = .ok fs1 := h
            cases h2
            right; right; rfl
    | otherError => exact Except.noConfusion h

/-- Claim C2, witness for the amended theorem at concrete inputs: a fault
while writing the value file yields a miss, while a fault after the value
file completed yields the new value. -/
theorem dir_store_write_fault_behavior_witness :
    dir_lookup (fsUpdate (fun _ => EntryState.absent) 1 EntryState.corrupt) 1
      = .error (.keyError 1) ∧
    dir_lookup (fsUpdate (fun _ => EntryState.absent) 1 (EntryState.stored 2)) 1
      = .ok 2 ∧
    dir_store (fun _ => EntryState.absent) 1 2 WriteOutcome.otherError
      = .error .pyOther := by
  have h := dir_store_write_fault_behavior (fun _ => EntryState.absent) 1 2
  exact ⟨(h.1 true _ rfl).1, (h.2.2.1 _ rfl).1, h.2.2.2.2.1⟩

/-- Claim C3, counterexample.  The claim says: for `lfu_cache` with
`maxsize = 2`, no archive, access counts `A:5, B:1`, inserting `C` evicts `B`
while A and C remain cached.  Running the embedded wrapper on the call
sequence A,A,A,A,A,B,C (A = 0, B = 1, C = 2, wrapped function
`fun k => k + 10`) shows C is NOT in the volatile table after the call: the
overflow handler evicts `max(2, maxsize // 10) = 2` least-frequent keys,
which are B and C themselves. -/
theorem lfu_scenario_new_key_not_retained :
    (lfuRun 2 false (fun k => k + 10) [0, 0, 0, 0, 0, 1, 2]).map
        (fun s => dlookup s.cache 2) = some none := by
  decide

/-- Claim C3, amended.  In the scenario above the call that inserts C evicts
the two least-frequently-used keys, which are B and C (both with count 1,
ties broken by dict insertion order): afterwards A is still cached with its
value and neither B nor C is in the volatile table. -/
theorem lfu_scenario_evicts_B_and_C :
    (lfuRun 2 false (fun k => k + 10) [0, 0, 0, 0, 0, 1, 2]).map
        (fun s => (dlookup s.cache 0, dlookup s.cache 1, dlookup s.cache 2)) =
      some (some 10, none, none) := by
  decide

/-- Claim C4, counterexample.  The claim says assigning the cache's archive
property replaces the active slot and leaves the swap slot unchanged in
every state.  Starting from active = live 1, swap = live 2, setting
archive live 3 changes the swap slot (it becomes live 1, the old active
archive). -/
theorem setArchive_changes_swap_slot :
    (setArchive ⟨Arch.live 1, Arch.live 2⟩ (Arch.live 3)).swp ≠
      (⟨Arch.live 1, Arch.live 2⟩ : CacheSlots).swp := by
  decide

/-- Claim C4, amended.  The archive property setter always makes the given
archive active; it leaves the swap slot unchanged only when the swap slot is
null — when the swap slot is non-null, the slots are first exchanged and the
swap slot ends up holding the previously active archive. -/
theorem setArchive_characterization (s : CacheSlots) (a : Arch) :
    (setArchive s a).act = a ∧
    (setArchive s a).swp = (if s.swp.isNull then s.swp else s.act) := by
  obtain ⟨act, swp⟩ := s
  cases swp <;> simp [setArchive, Arch.isNull]

/-- Claim C5 (confirmed).  For every bounded policy (LFU, LRU, MRU, RR) with
integer `maxsize ≥ 1`, with or without an archive attached, and for every
sequence of calls on a fresh engine, after each call that returns, the
number of entries in the volatile table is at most `maxsize`.  (Each run
function returns the state after the whole sequence; since the sequence is
universally quantified, the bound holds after every call.) -/
theorem bounded_policies_capacity (maxsize : Nat) (_hm : 1 ≤ maxsize) :
    (∀ (archd : Bool) (f : Nat → Nat) (ks : List Nat) (s : LfuSt),
        lfuRun maxsize archd f ks = some s → s.cache.length ≤ maxsize) ∧
    (∀ (archd : Bool) (f : Nat → Nat) (ks : List Nat) (s : LruSt),
        lruRun maxsize archd f ks = some s → s.cache.length ≤ maxsize) ∧
    (∀ (archd : Bool) (f : Nat → Nat) (ks : List Nat) (s : MruSt),
        mruRun maxsize archd f ks = some s → s.cache.length ≤ maxsize) ∧
    (∀ (archd : Bool) (f : Nat → Nat) (krs : List (Nat × Nat)) (s : RrSt),
        rrRun maxsize archd f krs = some s → s.cache.length ≤ maxsize) :=
  ⟨fun archd f ks s hs => lfuRun_capacity maxsize archd f ks s hs,
   fun archd f ks s hs => lruRun_capacity maxsize archd f ks s hs,
   fun archd f ks s hs => mruRun_capacity maxsize archd f ks s hs,
   fun archd f krs s hs => rrRun_capacity maxsize archd f krs s hs⟩

/-- Claim C5, witness: `lfu_cache` with `maxsize = 1`, no archive, on the
call sequence 0, 1, 2 ends with exactly one cached entry. -/
theorem bounded_policies_capacity_witness :
    lfuRun 1 false (fun k => k) [0, 1, 2] =
      some ⟨[(2, 2)], [(2, 1)], ⟨0, 3, 0⟩, []⟩ ∧
    (⟨[(2, 2)], [(2, 1)], ⟨0, 3, 0⟩, []⟩ : LfuSt).cache.length ≤ 1 := by
  refine ⟨by decide, ?_⟩
  exact (bounded_policies_capacity 1 (by decide)).1 false (fun k => k)
    [0, 1, 2] _ (by decide)

/-- Claim C6, counterexample.  The claim says: with a persistent archive
attached, after `f(1)` twice and then clearing only the volatile table
(keeping statistics and archive contents), a third call reports
`(hit=1, miss=1, load=1)`.  But `inf_cache` never writes to the archive on
its own, so after the stated sequence the archive is still empty and the
third call is another miss: the statistics are `(hit=1, miss=2, load=0)`. -/
theorem inf_cache_stats_without_dump :
    ((infStep true (fun k => k + 100)
        (infClearKeepStats
          (infStep true (fun k => k + 100)
            (infStep true (fun k => k + 100) infInit 1).2 1).2) 1).2).stats
      = ⟨1, 2, 0⟩ ∧
    (⟨1, 2, 0⟩ : Stats) ≠ ⟨1, 1, 1⟩ := by
  decide

/-- Claim C6, amended.  With the archive attached, a first call reports
`(hit=0, miss=1, load=0)` and a second call `(hit=1, miss=1, load=0)`; after
DUMPING the cache to the archive and then clearing only the volatile table
(keeping statistics), the third call loads from the archive and reports
`(hit=1, miss=1, load=1)`. -/
theorem inf_cache_stats_with_dump (f : Nat → Nat) (k : Nat) :
    ((infStep true f infInit k).2).stats = ⟨0, 1, 0⟩ ∧
    ((infStep true f (infStep true f infInit k).2 k).2).stats = ⟨1, 1, 0⟩ ∧
    ((infStep true f
        (infClearKeepStats
          (infDump (infStep true f (infStep true f infInit k).2 k).2)) k).2).stats
      = ⟨1, 1, 1⟩ := by
  refine ⟨?_, ?_, ?_⟩ <;>
    simp [infStep, infInit, infClearKeepStats, infDump, cacheLoadKey,
      dlookup, dset, dmergeInto, cget, Stats.incHit, Stats.incMiss,
      Stats.incLoad]

/-- Claim C7, counterexample.  The claim says the one-argument form swaps
the active and swap slots only when the requested state differs from the
current one.  With active = live 1 and swap = live 2 the engine is already
archived, yet `archived(True)` still exchanges the slots. -/
theorem archivedToggle_true_swaps_when_already_on :
    archivedQ ⟨Arch.live 1, Arch.live 2⟩ = true ∧
    archivedToggle ⟨Arch.live 1, Arch.live 2⟩ true ≠
      Except.ok ⟨Arch.live 1, Arch.live 2⟩ := by
  refine ⟨rfl, ?_⟩
  intro h
  have h2 : Except.ok (ε := String) (⟨Arch.live 2, Arch.live 1⟩ : CacheSlots) =
      Except.ok ⟨Arch.live 1, Arch.live 2⟩ := h
  simp at h2

/-- Claim C7, amended.  `archived()` with no argument reports whether the
active archive is non-null.  `archived(True)` exchanges the slots whenever
the SWAP slot is non-null (even when already archived); it is a no-op when
the swap slot is null but the active slot is non-null; and it raises
`ValueError` exactly when both slots are null (no non-null archive is
available to activate).  `archived(False)` exchanges the slots whenever the
active slot is non-null and is a no-op otherwise — and never raises. -/
theorem archivedToggle_characterization (s : CacheSlots) :
    (archivedQ s = true ↔ s.act ≠ Arch.null) ∧
    (archivedToggle s true = .error "no valid archive has been set" ↔
        (s.act = Arch.null ∧ s.swp = Arch.null)) ∧
    (s.swp ≠ Arch.null → archivedToggle s true = .ok ⟨s.swp, s.act⟩) ∧
    (s.swp = Arch.null → s.act ≠ Arch.null → archivedToggle s true = .ok s) ∧
    (s.act ≠ Arch.null → archivedToggle s false = .ok ⟨s.swp, s.act⟩) ∧
    (s.act = Arch.null → archivedToggle s false = .ok s) := by
  obtain ⟨act, swp⟩ := s
  cases act <;> cases swp <;>
    simp [archivedQ, archivedToggle, Arch.isNull]

/-- Claim C7, witness for the amended theorem at a concrete input. -/
theorem archivedToggle_characterization_witness :
    archivedToggle ⟨Arch.null, Arch.live 4⟩ true = .ok ⟨Arch.live 4, Arch.null⟩ :=
  (archivedToggle_characterization ⟨Arch.null, Arch.live 4⟩).2.2.1 (by decide)

/-- Claim C8 (confirmed).  For `dir_archive`, a lookup of any key whose
entry is not a completely stored value — missing subdirectory, absent or
unreadable value file, or failed deserialization — is reported as the key
being not found: `__getitem__` raises `KeyError(key)` and `get` returns its
default value, never any other kind of fault. -/
theorem dir_lookup_failure_is_keyError (fs : DirFS) (k : Nat)
    (h : ∀ v, fs k ≠ EntryState.stored v) :
    dir_lookup fs k = .error (.keyError k) ∧ ∀ d, dir_get fs k d = d := by
  have hro : ∃ e, readOutput (fs k) = .error e := by
    cases hfs : fs k with
    | absent => exact ⟨_, rfl⟩
    | noFile => exact ⟨_, rfl⟩
    | unreadable => exact ⟨_, rfl⟩
    | corrupt => exact ⟨_, rfl⟩
    | stored v => exact absurd hfs (h v)
  obtain ⟨e, he⟩ := hro
  have hl : dir_lookup fs k = .error (.keyError k) := by
    unfold dir_lookup
    rw [he]
  refine ⟨hl, ?_⟩
  intro d
  unfold dir_get
  rw [hl]

/-- Claim C8, witness: a corrupt value file is reported as key-not-found. -/
theorem dir_lookup_failure_is_keyError_witness :
    dir_lookup (fun _ => EntryState.corrupt) 7 = .error (.keyError 7) ∧
    dir_get (fun _ => EntryState.corrupt) 7 none = none := by
  have h := dir_lookup_failure_is_keyError (fun _ => EntryState.corrupt) 7
    (fun v hv => by cases hv)
  exact ⟨h.1, h.2 none⟩

/-- Claim C9 (confirmed).  In `lru_cache`, whenever the history queue is
longer than `maxsize * 10` at the end of a call, the compaction phase
rebuilds the queue as `keepLast q` — exactly one occurrence (the most
recent) of each key that was present, in relative order of most recent
access (the spec-side `keepLast` keeps precisely the occurrences with no
later duplicate, in order) — and every retained key's refcount is reset
to 1. -/
theorem lru_compaction_rebuild (maxsize : Nat) (q : List Nat)
    (rc : List (Nat × Int)) (h : q.length > maxsize * 10) :
    (lruCompactPhase (maxsize * 10) q rc).1 = keepLast q ∧
    (lruCompactPhase (maxsize * 10) q rc).1.Nodup ∧
    (∀ k, k ∈ (lruCompactPhase (maxsize * 10) q rc).1 ↔ k ∈ q) ∧
    (∀ k ∈ (lruCompactPhase (maxsize * 10) q rc).1,
        dlookup (lruCompactPhase (maxsize * 10) q rc).2 k = some 1) := by
  have hph : lruCompactPhase (maxsize * 10) q rc = lruCompact q := by
    unfold lruCompactPhase
    rw [if_pos h]
  rw [hph]
  obtain ⟨h1, h2⟩ := lruCompact_eq q
  refine ⟨h1, ?_, ?_, h2⟩
  · rw [h1]; exact keepLast_nodup q
  · intro k; rw [h1]; exact keepLast_mem q k

/-- Claim C9, witness: queue `[1, 2, 1]` with `maxsize = 0` compacts to
`[2, 1]`. -/
theorem lru_compaction_rebuild_witness :
    (lruCompactPhase 0 [1, 2, 1] []).1 = keepLast [1, 2, 1] ∧
    keepLast [1, 2, 1] = [2, 1] := by
  have h := lru_compaction_rebuild 0 [1, 2, 1] [] (by decide)
  exact ⟨h.1, by decide⟩

/-- Claim C10 (confirmed).  For the `no_cache` decorator: after every call
the volatile table is empty (so `info().size = 0`), the hit counter is never
incremented (it stays at its previous value step by step, and remains 0 over
any run from a fresh engine), and each call increments exactly one of the
miss or load counters. -/
theorem no_cache_invariants :
    (∀ (archd : Bool) (f : Nat → Nat) (s : NoSt) (k : Nat),
        (noStep archd f s k).2.cache = [] ∧
        (noStep archd f s k).2.stats.hit = s.stats.hit ∧
        (((noStep archd f s k).2.stats.miss = s.stats.miss + 1 ∧
          (noStep archd f s k).2.stats.load = s.stats.load) ∨
         ((noStep archd f s k).2.stats.load = s.stats.load + 1 ∧
          (noStep archd f s k).2.stats.miss = s.stats.miss))) ∧
    (∀ (archd : Bool) (f : Nat → Nat) (ks : List Nat),
        (noRun archd f ks).cache = [] ∧ (noRun archd f ks).stats.hit = 0) := by
  constructor
  · exact noStep_post
  · intro archd f ks
    exact ⟨noFold_cache archd f ks noInit rfl, noFold_hit archd f ks noInit⟩

end Klepto
